import Mathlib

/-!
# How-Caches-Work: a verification development for `main.cpp`

The program is a set of five timing probes (`cacheline`, `multi_level_caches`,
`instruction_level_parallelism`, `cache_associativity`, `false_sharing`) plus the
helper `get_size_str`.  This file embeds the index arithmetic, the loop cursors,
the buffer sizes and the text written to `cout` as Lean definitions, and proves
properties of them.

Conventions of the embedding:

* `int` is a 32-bit two's complement integer.  Values are Lean `Int`s; an
  arithmetic step whose mathematical result leaves `[INT_MIN, INT_MAX]` is
  undefined behaviour in C++ and is modelled by `none`.
* `sizeof(int)` is 4.
* The stopwatch readings (`sw.elapsed()`, a `long long`) are inputs of the
  embedding: every probe is a function of the readings it prints.
* `std::to_string(float)` is an input of `get_size_str`: the quotient is a
  floating point value, only the text around it is modelled.
* `cout << x` appends the decimal text of `x`; `endl` appends a newline.
-/

namespace HowCachesWork

/-! ## 32-bit `int` arithmetic -/

def INT_MAX : Int := 2 ^ 31 - 1

def INT_MIN : Int := -(2 ^ 31)

/-- The value of an `int` expression whose mathematical result is `x`:
`none` when `x` is not representable (signed overflow). -/
def int_result (x : Int) : Option Int :=
  if INT_MIN ≤ x ∧ x ≤ INT_MAX then some x else none

/-- `a + b` on `int`. -/
def int_add (a b : Int) : Option Int := int_result (a + b)

/-- `a << n` on `int`, for a non-negative `a`; shifting a negative value or
shifting bits out of range is modelled as undefined. -/
def int_shl (a : Int) (n : Nat) : Option Int :=
  if 0 ≤ a then int_result (a * 2 ^ n) else none

/-- `sizeof(int)`. -/
def sizeof_int : Int := 4

/-- `#define KB << 10`: the text `x KB` is the expression `x << 10`.  The macro is
only applied to small literals, where the shift cannot overflow. -/
def KB (x : Int) : Int := x * 2 ^ 10

/-- `#define MB << 20`: the text `x MB` is the expression `x << 20`. -/
def MB (x : Int) : Int := x * 2 ^ 20

/-- `#define CACHE_LINE_SIZE 64`. -/
def CACHE_LINE_SIZE : Int := 64

/-- Conversion of an `int` to `size_t` (64-bit, unsigned): reduction modulo `2^64`. -/
def to_size_t (x : Int) : Int := x % 2 ^ 64

/-- Conversion of an unsigned value to `int`: reduction modulo `2^32` into
`[INT_MIN, INT_MAX]`. -/
def to_int (x : Int) : Int := (x + 2 ^ 31) % 2 ^ 32 - 2 ^ 31

/-! ## `get_size_str` -/

/-- `get_size_str(length)`.  `to_string_float n d` stands for
`std::to_string((float)n / d)` where `d` is `1024.0f` or `1024.0f * 1024.0f`;
`std::to_string(length)` on an `int` is the decimal text. -/
def get_size_str (to_string_float : Int → Int → String) (length : Int) : String :=
  if length < KB 1 then
    toString length ++ " B"
  else if length ≥ KB 1 ∧ length < MB 1 then
    to_string_float length 1024 ++ " KB"
  else if length ≥ MB 1 then
    to_string_float length (1024 * 1024) ++ " MB"
  else
    toString length

/-- The three units of the size formatter. -/
inductive SizeUnit where
  | bytes
  | KiB
  | MiB
  deriving DecidableEq, Repr

/-- The suffix that marks a unit in the text of `get_size_str`. -/
def SizeUnit.suffix : SizeUnit → String
  | .bytes => " B"
  | .KiB => " KB"
  | .MiB => " MB"

/-- A string is in unit `u` when it ends with the suffix of `u`. -/
def has_unit (s : String) (u : SizeUnit) : Prop :=
  u.suffix.data <:+ s.data

instance (s : String) (u : SizeUnit) : Decidable (has_unit s u) := by
  unfold has_unit; infer_instance

/-- The unit the specification prescribes for a byte count: bytes below 1024,
KiB from 1024 up to (not including) 1024², MiB from 1024² on. -/
def prescribed_unit (b : Int) : SizeUnit :=
  if b < 1024 then .bytes else if b < 1024 * 1024 then .KiB else .MiB

/-! ## `cacheline`: the buffer -/

/-- `int size = 64 MB;` in the loop body of `cacheline` (the same for every step). -/
def cacheline_size (_step : Nat) : Int := MB 64

/-- The number of elements of `new int[size]` in `cacheline`. -/
def cacheline_buffer_elements (step : Nat) : Int := cacheline_size step

/-- The number of bytes of the array `new int[size]`: `size` elements of
`sizeof(int)` bytes each. -/
def cacheline_buffer_bytes (step : Nat) : Int := cacheline_buffer_elements step * sizeof_int

/-! ## `multi_level_caches` -/

/-- `int access_count = 64 * 1024 * 1024;`. -/
def access_count : Int := 64 * 1024 * 1024

/-- `int array_size = buffer_size / sizeof(int);`: the `int` is converted to
`size_t`, divided, and the quotient converted back to `int`. -/
def foreach_array_size (buffer_size : Int) : Int :=
  to_int (to_size_t buffer_size / sizeof_int)

/-- `int mod = array_size - 1;`. -/
def foreach_mod (array_size : Int) : Option Int := int_result (array_size - 1)

/-- The index expression `(i << 2) & mod` of `multi_level_caches_foreach`. -/
def foreach_index (mod i : Int) : Option Int :=
  (int_shl i 2).map fun s => Int.land s mod

/-- One execution of the loop body `buffer[(i << 2) & mod]++`.  The state records
how many increments each cell of `new int[array_size]` has received (the array is
not initialised, so only the increments are tracked).  `none` when the index
expression overflows or the index is outside the array. -/
def foreach_body (array_size mod : Int) (touches : Int → Nat) (i : Nat) : Option (Int → Nat) :=
  match foreach_index mod i with
  | some idx =>
    if 0 ≤ idx ∧ idx < array_size then
      some (Function.update touches idx (touches idx + 1))
    else none
  | none => none

/-- The loop `for (int i = 0; i < n; ++i) buffer[(i << 2) & mod]++;` started on an
untouched buffer. -/
def foreach_loop (array_size mod : Int) (n : Nat) : Option (Int → Nat) :=
  (List.range n).foldlM (foreach_body array_size mod) (fun _ => 0)

/-- The memory accesses of `multi_level_caches_foreach(buffer_size)`: the number of
increments every cell has received when the loop is left. -/
def multi_level_caches_foreach_touches (buffer_size : Int) : Option (Int → Nat) :=
  (foreach_mod (foreach_array_size buffer_size)).bind fun mod =>
    foreach_loop (foreach_array_size buffer_size) mod access_count.toNat

/-- The argument `array_size * sizeof(int)` (a `size_t` product) converted to the
`int` parameter of `get_size_str`. -/
def foreach_reported_size (buffer_size : Int) : Int :=
  to_int (to_size_t (foreach_array_size buffer_size) * sizeof_int % 2 ^ 64)

/-- The text `multi_level_caches_foreach(buffer_size)` writes, given the stopwatch
reading. -/
def multi_level_caches_foreach_output (to_string_float : Int → Int → String)
    (buffer_size elapsed : Int) : String :=
  "elapsed: " ++ toString elapsed ++ " ns" ++ ", buffer size: " ++
    get_size_str to_string_float (foreach_reported_size buffer_size) ++ "\n"

/-- The argument `(1 << i) * 1024` of the `i`-th call in `multi_level_caches`. -/
def sweep_buffer_size (i : Nat) : Option Int :=
  (int_shl 1 i).bind fun v => int_result (v * 1024)

/-- The buffer sizes `multi_level_caches` passes to `multi_level_caches_foreach`,
in call order: the loop `for (int i = 0; i <= 16; ++i)`. -/
def multi_level_caches_sweep : List (Option Int) :=
  (List.range 17).map sweep_buffer_size

/-- The text `multi_level_caches()` writes; `elapsed i` is the stopwatch reading of
the `i`-th call. -/
def multi_level_caches (to_string_float : Int → Int → String) (elapsed : Nat → Int) :
    Option String :=
  ((List.range 17).foldlM
    (fun out i => (sweep_buffer_size i).map fun buffer_size =>
      out ++ multi_level_caches_foreach_output to_string_float buffer_size (elapsed i))
    ("multi-level caches: " ++ "\n")).map fun out => out ++ "\n"

/-! ## `cache_associativity` -/

/-- `const int count = 64 MB;` in `cache_associativity(length, step)`. -/
def associativity_count : Int := MB 64

/-- One execution of the loop body of `cache_associativity(length, step)` with
cursor `p`: `buffer[p]++` (undefined outside `new char[length]`), `p += step`
(undefined on overflow), `if (p >= length) p = 0`.  The result is the next cursor. -/
def associativity_body (length step p : Int) : Option Int :=
  if 0 ≤ p ∧ p < length then
    (int_add p step).map fun q => if q ≥ length then 0 else q
  else none

/-- The cursor `p` at the start of iteration `i` of the loop
`for (int i = 0, p = 0; i < count; i++)`: the index `buffer[p]++` uses there. -/
def associativity_cursor (length step : Int) : Nat → Option Int
  | 0 => some 0
  | i + 1 => (associativity_cursor length step i).bind (associativity_body length step)

/-- The quotient `a / b` rounded up, for a positive divisor `b`: the `m` with
`b * (m - 1) < a ≤ b * m`. -/
def ceil_div (a b : Int) : Int := (a + b - 1) / b

/-- The thirteen calls `cache_associativity(length, step)` of `cache_associativity()`,
in order. -/
def cache_associativity_calls : List (Int × Int) :=
  [(128 * 1024 * 1024, 1), (128 * 1024 * 1024, 31), (128 * 1024 * 1024, 32),
   (128 * 1024 * 1024, 63), (128 * 1024 * 1024, 64), (128 * 1024 * 1024, 256),
   (128 * 1024 * 1024, 257), (128 * 1024 * 1024, 512), (128 * 1024 * 1024, 576),
   (128 * 1024 * 1024, 4096), (128 * 1024 * 1024, 4097), (128 * 1024 * 1024, 8192),
   (128 * 1024 * 1024, 8193)]

/-! ## `false_sharing`: placement of the offsets -/

/-- The number of elements of `new int[1024]` in `false_sharing`. -/
def false_sharing_buffer_length : Int := 1024

/-- The offsets of the first call in `false_sharing()`: `false_sharing(0, 1, 2, 3)`. -/
def false_sharing_first_call : List Int := [0, 1, 2, 3]

/-- The offsets of the second call in `false_sharing()`:
`false_sharing(16, 32, 48, 64)`. -/
def false_sharing_second_call : List Int := [16, 32, 48, 64]

/-- The byte address of `buffer[k]` for an `int` array starting at byte address `base`. -/
def element_address (base k : Int) : Int := base + sizeof_int * k

/-- The cache line of `buffer[k]`: the element's byte address divided by
`CACHE_LINE_SIZE`, rounded down. -/
def cache_line_of (base k : Int) : Int := element_address base k / CACHE_LINE_SIZE

/-- All the offsets fall in one cache line. -/
def same_cache_line (base : Int) (offsets : List Int) : Prop :=
  ∀ a ∈ offsets, ∀ b ∈ offsets, cache_line_of base a = cache_line_of base b

/-- The offsets fall in pairwise different cache lines. -/
def different_cache_lines (base : Int) (offsets : List Int) : Prop :=
  offsets.Pairwise fun a b => cache_line_of base a ≠ cache_line_of base b

/-- The offsets are pairwise distinct and inside `new int[1024]`. -/
def valid_offsets (offsets : List Int) : Prop :=
  offsets.Nodup ∧ ∀ a ∈ offsets, 0 ≤ a ∧ a < false_sharing_buffer_length

instance (base : Int) (offsets : List Int) : Decidable (same_cache_line base offsets) := by
  unfold same_cache_line; infer_instance

instance (base : Int) (offsets : List Int) : Decidable (different_cache_lines base offsets) := by
  unfold different_cache_lines; infer_instance

instance (offsets : List Int) : Decidable (valid_offsets offsets) := by
  unfold valid_offsets; infer_instance

/-! ## `false_sharing`: the four workers

`buffer[pos]++` is a load followed by a store of the incremented value; the four
threads interleave at that granularity.  A schedule is the sequence of thread
numbers in the order in which they take their steps. -/

/-- The iteration count `1 MB` of the loop in `write_buffer`. -/
def write_count : Nat := (MB 1).toNat

/-- A thread executing `write_buffer(buffer, pos)`: its argument `pos`, its loop
counter `i`, and the value loaded by an increment `buffer[pos]++` whose store is
still pending. -/
structure Worker where
  pos : Int
  i : Nat
  loaded : Option Int

/-- The state of `false_sharing` once the threads exist: the contents of the
buffer and the four workers. -/
structure Shared where
  buffer : Int → Int
  workers : Fin 4 → Worker

/-- One step of a worker on the buffer: the load of `buffer[pos]++`, or its store
followed by `i++`.  A worker whose loop has ended does nothing.  `none` when `pos`
is outside `new int[1024]` or the increment overflows. -/
def write_buffer_step (buffer : Int → Int) (w : Worker) : Option ((Int → Int) × Worker) :=
  if w.i < write_count then
    if 0 ≤ w.pos ∧ w.pos < false_sharing_buffer_length then
      match w.loaded with
      | none => some (buffer, { w with loaded := some (buffer w.pos) })
      | some v =>
        (int_add v 1).map fun v1 =>
          (Function.update buffer w.pos v1, { w with i := w.i + 1, loaded := none })
    else none
  else some (buffer, w)

/-- Thread `t` takes one step. -/
def shared_step (s : Shared) (t : Fin 4) : Option Shared :=
  (write_buffer_step s.buffer (s.workers t)).map fun r =>
    { buffer := r.1, workers := Function.update s.workers t r.2 }

/-- The state after `thread t1 .. t4` have been created: `contents` is what the
storage returned by `new int[1024]` holds (the array is not initialised by the
program). -/
def false_sharing_start (contents : Int → Int) (pos : Fin 4 → Int) : Shared :=
  { buffer := contents, workers := fun t => { pos := pos t, i := 0, loaded := none } }

/-- The state of `false_sharing(pos1, pos2, pos3, pos4)` after the threads have
taken their steps in the order given by the schedule. -/
def false_sharing_run (contents : Int → Int) (pos1 pos2 pos3 pos4 : Int)
    (schedule : List (Fin 4)) : Option Shared :=
  schedule.foldlM shared_step (false_sharing_start contents ![pos1, pos2, pos3, pos4])

/-- All four workers have finished their loops, so the four `join` calls return. -/
def joined (s : Shared) : Prop := ∀ t, (s.workers t).i = write_count

/-- The schedule in which the threads run one after the other, each to completion
(two steps per increment). -/
def sequential_schedule : List (Fin 4) :=
  List.replicate (2 * write_count) 0 ++ List.replicate (2 * write_count) 1 ++
    List.replicate (2 * write_count) 2 ++ List.replicate (2 * write_count) 3

/-- The number of steps a worker has taken. -/
def Worker.progress (w : Worker) : Nat := 2 * w.i + if w.loaded.isSome then 1 else 0

/-- The invariant of a run of the four workers on distinct cells, where `steps t`
is the number of steps thread `t` has been given: the cell of each worker holds
its initial contents plus the number of completed increments, a pending increment
has loaded the current value of the cell, and the worker has used as many of its
steps as its loop needs. -/
def run_inv (contents : Int → Int) (pos : Fin 4 → Int) (steps : Fin 4 → Nat) (s : Shared) :
    Prop :=
  ∀ t, (s.workers t).pos = pos t ∧ (s.workers t).i ≤ write_count ∧
    s.buffer (pos t) = contents (pos t) + (s.workers t).i ∧
    ((s.workers t).loaded = none ∨
      ((s.workers t).loaded = some (s.buffer (pos t)) ∧ (s.workers t).i < write_count)) ∧
    (s.workers t).progress = min (2 * write_count) (steps t)

/-! ## The text the probes write to `cout` -/

/-- The text `cacheline()` writes for one `step`, given the stopwatch reading:
`(1 << step) * sizeof(int)` is a `size_t` product. -/
def cacheline_output (step : Nat) (elapsed : Int) : String :=
  "elapsed: " ++ toString elapsed ++ " ns" ++ ", step: " ++
    toString (to_size_t (1 * 2 ^ step) * sizeof_int % 2 ^ 64) ++ " bytes" ++ "\n"

/-- The text `cacheline()` writes; `elapsed step` is the stopwatch reading of the
iteration `step` of `for (int step = 0; step <= 10; step++)`. -/
def cacheline (elapsed : Nat → Int) : String :=
  (List.range 11).foldl (fun out step => out ++ cacheline_output step (elapsed step))
    ("cacheline: " ++ "\n") ++ "\n"

/-- The text `instruction_level_parallelism()` writes, given the three stopwatch
readings. -/
def instruction_level_parallelism (elapsed1 elapsed2 elapsed3 : Int) : String :=
  "instruction level parallelism: " ++ "\n" ++
    ("case1: " ++ toString elapsed1 ++ " ns" ++ "\n") ++
    ("case2: " ++ toString elapsed2 ++ " ns" ++ "\n") ++
    ("case3: " ++ toString elapsed3 ++ " ns" ++ "\n") ++ "\n"

/-- The text `cache_associativity(length, step)` writes, given the stopwatch reading. -/
def cache_associativity_output (to_string_float : Int → Int → String)
    (length step elapsed : Int) : String :=
  "elapsed: " ++ toString elapsed ++ " ns, " ++ get_size_str to_string_float length ++
    ", step : " ++ toString step ++ "\n"

/-- The text `cache_associativity()` writes; `elapsed n` is the stopwatch reading of
the `n`-th call (counted from 0). -/
def cache_associativity (to_string_float : Int → Int → String) (elapsed : Nat → Int) : String :=
  cache_associativity_calls.enum.foldl
    (fun out c => out ++ cache_associativity_output to_string_float c.2.1 c.2.2 (elapsed c.1))
    ("cache associativity: " ++ "\n") ++ "\n"

/-- The text `false_sharing(pos1, pos2, pos3, pos4)` writes, given the stopwatch
reading. -/
def false_sharing_output (pos1 pos2 pos3 pos4 elapsed : Int) : String :=
  "steps: " ++ toString pos1 ++ ", " ++ toString pos2 ++ ", " ++ toString pos3 ++ ", " ++
    toString pos4 ++ ": " ++ "elapsed " ++ toString elapsed ++ " ns" ++ "\n"

/-- The text `false_sharing()` writes, given the stopwatch readings of its two calls. -/
def false_sharing (elapsed1 elapsed2 : Int) : String :=
  "false sharing: " ++ "\n" ++ false_sharing_output 0 1 2 3 elapsed1 ++
    false_sharing_output 16 32 48 64 elapsed2

/-! ## Lines of a text -/

/-- The text made of the given lines, each terminated by a newline. -/
def unlines : List String → String
  | [] => ""
  | l :: ls => l ++ "\n" ++ unlines ls

/-- The lines of a character sequence: the pieces between newlines; a last piece
without a newline after it counts as a line when it is not empty. -/
def lines_of : List Char → List (List Char)
  | [] => []
  | c :: cs =>
    if c = '\n' then [] :: lines_of cs
    else
      match lines_of cs with
      | [] => [[c]]
      | l :: ls => (c :: l) :: ls

/-- The lines of a text. -/
def output_lines (out : String) : List String := (lines_of out.data).map String.mk

/-- A text without a newline character. -/
def no_newline (s : String) : Prop := '\n' ∉ s.data

instance (s : String) : Decidable (no_newline s) := by
  unfold no_newline; infer_instance

/-- An observation line of the form the output format prescribes:
`elapsed: <N> ns, ` followed by the configuration fields. -/
def observation_line (l : String) : Prop :=
  ∃ (N : Int) (fields : String), l = "elapsed: " ++ toString N ++ " ns, " ++ fields

/-- The output format as specified: one labeled header line, then `n` observation
lines, then one blank line. -/
def report_format (n : Nat) (out : String) : Prop :=
  ∃ (header : String) (obs : List String),
    output_lines out = header :: obs ++ [""] ∧ header ≠ "" ∧ obs.length = n ∧
      ∀ l ∈ obs, observation_line l

/-! # Theorems -/

/-! ## `get_size_str` -/

theorem suffix_of_append (p u : String) : u.data <:+ (p ++ u).data := by
  rw [String.data_append]; exact List.suffix_append _ _

theorem suffix_eq_of_length {α : Type} {a b l : List α} (ha : a <:+ l) (hb : b <:+ l)
    (h : a.length = b.length) : a = b := by
  rcases List.suffix_or_suffix_of_suffix ha hb with h1 | h1
  · exact h1.eq_of_length h
  · exact (h1.eq_of_length h.symm).symm

/-- A string ending in the suffix of one unit does not end in the suffix of another. -/
theorem has_unit_unique (s : String) (u v : SizeUnit) (hu : has_unit s u) (hv : has_unit s v) :
    u = v := by
  -- the last two characters of the string decide the unit
  have key : ∀ w : SizeUnit, has_unit s w →
      (match w with
        | .bytes => [' ', 'B']
        | .KiB => ['K', 'B']
        | .MiB => ['M', 'B']) <:+ s.data := by
    intro w hw
    refine List.IsSuffix.trans ?_ hw
    cases w <;> decide
  have := suffix_eq_of_length (key u hu) (key v hv) (by cases u <;> cases v <;> rfl)
  revert this
  cases u <;> cases v <;> decide

theorem get_size_str_bytes (fs : Int → Int → String) (b : Int) (h : b < 1024) :
    get_size_str fs b = toString b ++ " B" := by
  have h1 : b < KB 1 := by unfold KB; omega
  simp only [get_size_str, if_pos h1]

theorem get_size_str_KiB (fs : Int → Int → String) (b : Int) (h : 1024 ≤ b) (h' : b < 1024 * 1024) :
    get_size_str fs b = fs b 1024 ++ " KB" := by
  have h1 : ¬ b < KB 1 := by unfold KB; omega
  have h2 : b ≥ KB 1 ∧ b < MB 1 := by unfold KB MB; omega
  simp only [get_size_str, if_neg h1, if_pos h2]

theorem get_size_str_MiB (fs : Int → Int → String) (b : Int) (h : 1024 * 1024 ≤ b) :
    get_size_str fs b = fs b (1024 * 1024) ++ " MB" := by
  have h1 : ¬ b < KB 1 := by unfold KB; omega
  have h2 : ¬ (b ≥ KB 1 ∧ b < MB 1) := by unfold KB MB; omega
  have h3 : b ≥ MB 1 := by unfold MB; omega
  simp only [get_size_str, if_neg h1, if_neg h2, if_pos h3]

theorem get_size_str_has_unit (fs : Int → Int → String) (b : Int) :
    has_unit (get_size_str fs b) (prescribed_unit b) := by
  unfold prescribed_unit
  by_cases h1 : b < 1024
  · rw [if_pos h1, get_size_str_bytes fs b h1]; exact suffix_of_append _ _
  · by_cases h2 : b < 1024 * 1024
    · rw [if_neg h1, if_pos h2, get_size_str_KiB fs b (by omega) h2]; exact suffix_of_append _ _
    · rw [if_neg h1, if_neg h2, get_size_str_MiB fs b (by omega)]; exact suffix_of_append _ _

/-- C1. For every byte count `b`, in particular every non-negative `int` (and for
every rendering of the float quotient), the text of `get_size_str(b)` is in unit `u` exactly when `u` is
the unit prescribed for `b`: bytes (suffix " B") when `b < 1024`, KiB (suffix
" KB") when `1024 ≤ b < 1024 * 1024`, MiB (suffix " MB") when `b ≥ 1024 * 1024`.
In particular `get_size_str(1024)` is a KiB string and not a bytes string, and
`get_size_str(1024 * 1024)` is a MiB string and not a KiB string. -/
theorem get_size_str_unit (fs : Int → Int → String) (b : Int) :
    (∀ u : SizeUnit, has_unit (get_size_str fs b) u ↔ u = prescribed_unit b) ∧
    (b < 1024 → get_size_str fs b = toString b ++ " B") ∧
    (1024 ≤ b → b < 1024 * 1024 → get_size_str fs b = fs b 1024 ++ " KB") ∧
    (1024 * 1024 ≤ b → get_size_str fs b = fs b (1024 * 1024) ++ " MB") ∧
    (has_unit (get_size_str fs 1024) .KiB ∧ ¬ has_unit (get_size_str fs 1024) .bytes) ∧
    (has_unit (get_size_str fs (1024 * 1024)) .MiB ∧
      ¬ has_unit (get_size_str fs (1024 * 1024)) .KiB) := by
  have iff : ∀ (c : Int) (u : SizeUnit), has_unit (get_size_str fs c) u ↔ u = prescribed_unit c := by
    intro c u
    constructor
    · intro hu; exact has_unit_unique _ _ _ hu (get_size_str_has_unit fs c)
    · rintro rfl; exact get_size_str_has_unit fs c
  refine ⟨iff b, get_size_str_bytes fs b, get_size_str_KiB fs b, get_size_str_MiB fs b, ?_, ?_⟩
  · exact ⟨(iff 1024 .KiB).2 (by decide), fun h => absurd ((iff 1024 .bytes).1 h) (by decide)⟩
  · exact ⟨(iff (1024 * 1024) .MiB).2 (by decide),
      fun h => absurd ((iff (1024 * 1024) .KiB).1 h) (by decide)⟩

theorem get_size_str_unit_witness :
    has_unit (get_size_str (fun _ _ => "1.000000") 1024) .KiB ∧
    ¬ has_unit (get_size_str (fun _ _ => "1.000000") 1024) .bytes ∧
    get_size_str (fun _ _ => "1.000000") 1024 = "1.000000 KB" :=
  have h := get_size_str_unit (fun _ _ => "1.000000") 1024
  ⟨h.2.2.2.2.1.1, h.2.2.2.2.1.2, h.2.2.1 (by decide) (by decide)⟩

/-! ## `multi_level_caches_foreach`: the index expression -/

theorem int_land_cast (a b : Nat) : Int.land (a : Int) (b : Int) = ((a &&& b : Nat) : Int) := rfl

theorem mask_cast (k : Nat) : ((2 : Int) ^ k - 1) = ((2 ^ k - 1 : Nat) : Int) := by
  have h : 1 ≤ 2 ^ k := Nat.one_le_two_pow
  rw [Nat.cast_sub h]; push_cast; ring

/-- The index expression on an in-range counter: `(i << 2) & (2^k - 1)` is `4 i mod 2^k`. -/
theorem foreach_index_eq (k n : Nat) (hn : (n : Int) < access_count) :
    foreach_index (2 ^ k - 1) n = some (((4 * n) % 2 ^ k : Nat) : Int) := by
  have h4 : ((n : Int) * 2 ^ 2) = ((4 * n : Nat) : Int) := by push_cast; ring
  have hr : INT_MIN ≤ (n : Int) * 2 ^ 2 ∧ (n : Int) * 2 ^ 2 ≤ INT_MAX := by
    unfold access_count at hn; unfold INT_MIN INT_MAX; constructor <;> omega
  have h0 : (0 : Int) ≤ n := Int.ofNat_nonneg n
  simp only [foreach_index, int_shl, int_result, if_pos h0, if_pos hr, Option.map_some']
  rw [h4, mask_cast, int_land_cast, Nat.and_pow_two_sub_one_eq_mod]

/-- C2. In `multi_level_caches_foreach`, for a buffer of `N = 2^k` `int` elements
with `8 ≤ k ≤ 24` and `mod = N - 1`, and for every loop counter `0 ≤ i < access_count`
(`access_count = 64 * 1024 * 1024`): `mod` is computed without overflow, `i << 2` does
not overflow `int` (it is `4 i`), and the index `(i << 2) & mod` is defined and lies in
`[0, N)`, so the access `buffer[(i << 2) & mod]` is in bounds. -/
theorem foreach_index_in_bounds (k : Nat) (hk' : k ≤ 24) (i : Int)
    (h0 : 0 ≤ i) (hi : i < access_count) :
    access_count = 64 * 1024 * 1024 ∧
    foreach_mod (2 ^ k) = some (2 ^ k - 1) ∧
    int_shl i 2 = some (4 * i) ∧
    ∃ idx, foreach_index (2 ^ k - 1) i = some idx ∧ 0 ≤ idx ∧ idx < 2 ^ k := by
  obtain ⟨n, rfl⟩ := Int.eq_ofNat_of_zero_le h0
  have hpow : (2 : Int) ^ k ≤ 2 ^ 24 := pow_le_pow_right₀ (by norm_num) hk'
  have hpos : (0 : Int) < 2 ^ k := by positivity
  refine ⟨rfl, ?_, ?_, _, foreach_index_eq k n hi, ?_, ?_⟩
  · have hr : INT_MIN ≤ (2 : Int) ^ k - 1 ∧ (2 : Int) ^ k - 1 ≤ INT_MAX := by
      unfold INT_MIN INT_MAX; constructor <;> omega
    simp only [foreach_mod, int_result, if_pos hr]
  · have hr : INT_MIN ≤ (n : Int) * 2 ^ 2 ∧ (n : Int) * 2 ^ 2 ≤ INT_MAX := by
      unfold access_count at hi; unfold INT_MIN INT_MAX; constructor <;> omega
    simp only [int_shl, int_result, if_pos h0, if_pos hr]
    congr 1; ring
  · exact Int.ofNat_nonneg _
  · have : (4 * n) % 2 ^ k < 2 ^ k := Nat.mod_lt _ (by positivity)
    exact_mod_cast this

theorem foreach_index_in_bounds_witness :
    ∃ idx, foreach_index (2 ^ 8 - 1) 100 = some idx ∧ 0 ≤ idx ∧ idx < 2 ^ 8 :=
  (foreach_index_in_bounds 8 (by decide) 100 (by decide) (by decide)).2.2.2

/-! ## `multi_level_caches_foreach`: the access counts -/

/-- The loop of `multi_level_caches_foreach` run for `n` iterations whose indices are
all in bounds: every cell has received as many increments as there are counters
`i < n` whose index is that cell. -/
theorem foreach_loop_count (array_size mod : Int) (n : Nat)
    (h : ∀ i < n, ∃ idx, foreach_index mod (i : Int) = some idx ∧ 0 ≤ idx ∧ idx < array_size) :
    foreach_loop array_size mod n =
      some (fun j => Nat.count (fun i : Nat => foreach_index mod (i : Int) = some j) n) := by
  induction n with
  | zero => simp [foreach_loop]
  | succ n ih =>
    have ih' := ih (fun i hi => h i (Nat.lt_succ_of_lt hi))
    obtain ⟨idx, hidx, h0, h1⟩ := h n (Nat.lt_succ_self n)
    unfold foreach_loop at ih' ⊢
    rw [List.range_succ, List.foldlM_append, ih']
    simp only [Option.bind_eq_bind, Option.some_bind, List.foldlM_cons, List.foldlM_nil,
      foreach_body, hidx, if_pos (And.intro h0 h1), Option.bind_some, Option.pure_def]
    congr 1
    funext j
    rw [Nat.count_succ]
    by_cases hj : j = idx
    · subst hj; simp [hidx]
    · have : ¬ (some idx = some j) := fun e => hj (Option.some.inj e).symm
      simp [Function.update_noteq hj, hidx, this]

/-- Counting the counters below `2^26` that hit a given cell of a `2^k`-element buffer. -/
theorem foreach_hits (k : Nat) (hk : 8 ≤ k) (hk' : k ≤ 24) (j : Int) :
    Nat.count (fun i : Nat => foreach_index (2 ^ k - 1) (i : Int) = some j) (2 ^ 26) =
      if 0 ≤ j ∧ j < 2 ^ k ∧ j % 4 = 0 then 2 ^ 28 / 2 ^ k else 0 := by
  have hM : 2 ^ k = 4 * 2 ^ (k - 2) := by
    have : k = (k - 2) + 2 := by omega
    conv_lhs => rw [this, pow_add]
    ring
  have hMpos : 0 < 2 ^ (k - 2) := by positivity
  have hidx : ∀ i ∈ Finset.range (2 ^ 26),
      (foreach_index (2 ^ k - 1) (i : Int) = some j ↔ ((4 * (i % 2 ^ (k - 2)) : Nat) : Int) = j) := by
    intro i hi
    have hi' : (i : Int) < access_count := by
      have := Finset.mem_range.1 hi
      unfold access_count; omega
    rw [foreach_index_eq k i hi', hM, Nat.mul_mod_mul_left]
    simp
  rw [Nat.count_eq_card_filter_range, Finset.filter_congr hidx]
  by_cases hj : 0 ≤ j ∧ j < 2 ^ k ∧ j % 4 = 0
  · rw [if_pos hj]
    obtain ⟨hj0, hj1, hj4⟩ := hj
    obtain ⟨r, rfl⟩ : ∃ r : Nat, j = ((4 * r : Nat) : Int) := by
      refine ⟨(j / 4).toNat, ?_⟩
      push_cast
      rw [Int.toNat_of_nonneg (by omega)]
      omega
    have hr : r < 2 ^ (k - 2) := by
      have : ((4 * r : Nat) : Int) < ((2 ^ k : Nat) : Int) := by push_cast at hj1 ⊢; exact hj1
      have := Int.ofNat_lt.1 this
      omega
    have hc : ∀ i ∈ Finset.range (2 ^ 26),
        (((4 * (i % 2 ^ (k - 2)) : Nat) : Int) = ((4 * r : Nat) : Int) ↔ i ≡ r [MOD 2 ^ (k - 2)]) := by
      intro i _
      unfold Nat.ModEq
      rw [Nat.mod_eq_of_lt hr]
      constructor
      · intro h; have := Int.ofNat_inj.1 h; omega
      · intro h; rw [h]
    rw [Finset.filter_congr hc, ← Nat.count_eq_card_filter_range, Nat.count_modEq_card _ hMpos]
    interval_cases k <;> simp
  · rw [if_neg hj]
    rw [Finset.card_eq_zero, Finset.filter_eq_empty_iff]
    intro i _ h
    apply hj
    have h2 : (4 * (i % 2 ^ (k - 2))) < 2 ^ k := by
      have := Nat.mod_lt i hMpos
      omega
    refine ⟨by rw [← h]; exact Int.ofNat_nonneg _, ?_, ?_⟩
    · rw [← h]; exact_mod_cast h2
    · rw [← h]; push_cast; omega

/-- For a non-negative byte count below `2^31`, `array_size` is the count divided by 4. -/
theorem foreach_array_size_eq (b : Int) (h0 : 0 ≤ b) (h1 : b ≤ INT_MAX) :
    foreach_array_size b = b / 4 := by
  unfold INT_MAX at h1
  unfold foreach_array_size to_int to_size_t sizeof_int
  omega

/-- C10. In `multi_level_caches_foreach`, for a buffer of `N = 2^k` `int` elements
(`buffer_size = 4 N` bytes) with `8 ≤ k ≤ 24`: every accessed index
`(i << 2) & (N - 1)` is a multiple of 4 inside `[0, N)`; the loop of
`2^26` accesses completes, and afterwards every cell whose index is a multiple of 4
in `[0, N)` has been incremented exactly `2^28 / N` times while every other cell has
never been touched. -/
theorem foreach_touches (k : Nat) (hk : 8 ≤ k) (hk' : k ≤ 24) :
    access_count = 2 ^ 26 ∧
    (∀ i : Int, 0 ≤ i → i < access_count →
      ∃ idx, foreach_index (2 ^ k - 1) i = some idx ∧ idx % 4 = 0 ∧ 0 ≤ idx ∧ idx < 2 ^ k) ∧
    ∃ touches, multi_level_caches_foreach_touches (2 ^ k * 4) = some touches ∧
      ∀ j : Int, touches j = if 0 ≤ j ∧ j < 2 ^ k ∧ j % 4 = 0 then 2 ^ 28 / 2 ^ k else 0 := by
  have hpow : (2 : Int) ^ k ≤ 2 ^ 24 := pow_le_pow_right₀ (by norm_num) hk'
  have hpos : (0 : Int) < 2 ^ k := by positivity
  have h4 : (4 : Nat) ∣ 2 ^ k := by
    have : k = 2 + (k - 2) := by omega
    rw [this, pow_add]; exact Dvd.intro _ rfl
  refine ⟨by decide, ?_, ?_⟩
  · intro i h0 hi
    obtain ⟨n, rfl⟩ := Int.eq_ofNat_of_zero_le h0
    refine ⟨_, foreach_index_eq k n hi, ?_, Int.ofNat_nonneg _, ?_⟩
    · have : (4 * n % 2 ^ k) % 4 = 0 := by
        rw [Nat.mod_mod_of_dvd _ h4]; omega
      exact_mod_cast this
    · have : (4 * n) % 2 ^ k < 2 ^ k := Nat.mod_lt _ (by positivity)
      exact_mod_cast this
  · have hsize : foreach_array_size (2 ^ k * 4) = 2 ^ k := by
      rw [foreach_array_size_eq _ (by omega) (by unfold INT_MAX; omega)]; omega
    have hmod : foreach_mod (2 ^ k) = some (2 ^ k - 1) := by
      have hr : INT_MIN ≤ (2 : Int) ^ k - 1 ∧ (2 : Int) ^ k - 1 ≤ INT_MAX := by
        unfold INT_MIN INT_MAX; constructor <;> omega
      simp only [foreach_mod, int_result, if_pos hr]
    have hcount : access_count.toNat = 2 ^ 26 := by decide
    have hloop := foreach_loop_count (2 ^ k) (2 ^ k - 1) (2 ^ 26) (by
      intro i hi
      have hi' : (i : Int) < access_count := by unfold access_count; omega
      refine ⟨_, foreach_index_eq k i hi', Int.ofNat_nonneg _, ?_⟩
      have : (4 * i) % 2 ^ k < 2 ^ k := Nat.mod_lt _ (by positivity)
      exact_mod_cast this)
    refine ⟨_, ?_, fun j => foreach_hits k hk hk' j⟩
    unfold multi_level_caches_foreach_touches
    rw [hsize, hmod, Option.some_bind, hcount, hloop]

theorem foreach_touches_witness :
    ∃ touches, multi_level_caches_foreach_touches (2 ^ 8 * 4) = some touches ∧
      touches 252 = 2 ^ 20 ∧ touches 253 = 0 ∧ touches 256 = 0 := by
  obtain ⟨t, ht, h⟩ := (foreach_touches 8 (by decide) (by decide)).2.2
  exact ⟨t, ht, by rw [h]; decide, by rw [h]; decide, by rw [h]; decide⟩

/-! ## Text helpers -/

theorem unlines_append (a b : List String) : unlines (a ++ b) = unlines a ++ unlines b := by
  induction a with
  | nil => simp [unlines]
  | cons l ls ih => simp [unlines, ih, String.append_assoc]

theorem unlines_singleton (l : String) : unlines [l] = l ++ "\n" := by
  simp [unlines]

/-- A loop that appends one newline-terminated line per iteration writes the lines
in order. -/
theorem foldl_unlines {α : Type} (xs : List α) (g : String → α → String) (line : α → String)
    (init : String) (h : ∀ out, ∀ x ∈ xs, g out x = out ++ (line x ++ "\n")) :
    xs.foldl g init = init ++ unlines (xs.map line) := by
  induction xs generalizing init with
  | nil => simp [unlines]
  | cons x xs ih =>
    rw [List.foldl_cons, ih _ (fun out y hy => h out y (List.mem_cons_of_mem _ hy)),
      h init x (List.mem_cons_self _ _)]
    simp [unlines, String.append_assoc]

/-- The same for a counted loop whose iterations may be undefined but are not. -/
theorem foldlM_range_unlines (g : String → Nat → Option String) (line : Nat → String) (n : Nat)
    (init : String) (h : ∀ out, ∀ i < n, g out i = some (out ++ (line i ++ "\n"))) :
    (List.range n).foldlM g init = some (init ++ unlines ((List.range n).map line)) := by
  induction n with
  | zero => simp [unlines]
  | succ n ih =>
    rw [List.range_succ, List.foldlM_append, ih (fun out i hi => h out i (Nat.lt_succ_of_lt hi))]
    simp [unlines_append, unlines_singleton, h _ n (Nat.lt_succ_self n), String.append_assoc]

/-! ## `multi_level_caches`: the sweep -/

theorem sweep_buffer_size_eq (i : Nat) (hi : i ≤ 16) :
    sweep_buffer_size i = some (2 ^ i * 1024) := by
  interval_cases i <;> decide

theorem foreach_reported_size_eq (b : Int) (h0 : 0 ≤ b) (h1 : b ≤ INT_MAX) (h4 : b % 4 = 0) :
    foreach_reported_size b = b := by
  unfold foreach_reported_size
  rw [foreach_array_size_eq b h0 h1]
  unfold INT_MAX at h1
  unfold to_int to_size_t sizeof_int
  omega

theorem multi_level_caches_foreach_output_eq (fs : Int → Int → String) (i : Nat) (hi : i ≤ 16)
    (e : Int) :
    multi_level_caches_foreach_output fs (2 ^ i * 1024) e =
      ("elapsed: " ++ toString e ++ " ns, buffer size: " ++ get_size_str fs (2 ^ i * 1024))
        ++ "\n" := by
  have hpow : (2 : Int) ^ i ≤ 2 ^ 16 := pow_le_pow_right₀ (by norm_num) hi
  have hpos : (0 : Int) < 2 ^ i := by positivity
  unfold multi_level_caches_foreach_output
  rw [foreach_reported_size_eq _ (by omega) (by unfold INT_MAX; omega) (by omega)]
  apply String.ext
  simp [String.data_append]

theorem multi_level_caches_eq (fs : Int → Int → String) (elapsed : Nat → Int) :
    multi_level_caches fs elapsed =
      some (unlines ("multi-level caches: " ::
        (List.range 17).map (fun i => "elapsed: " ++ toString (elapsed i) ++
          " ns, buffer size: " ++ get_size_str fs (2 ^ i * 1024)) ++ [""])) := by
  unfold multi_level_caches
  rw [foldlM_range_unlines _
    (fun i => "elapsed: " ++ toString (elapsed i) ++
          " ns, buffer size: " ++ get_size_str fs (2 ^ i * 1024)) 17 ("multi-level caches: " ++ "\n")
    (by
      intro out i hi
      dsimp only
      rw [sweep_buffer_size_eq i (by omega), Option.map_some',
        multi_level_caches_foreach_output_eq fs i (by omega)])]
  simp only [Option.map_some']
  congr 1
  rw [← List.singleton_append, unlines_append, unlines_append, unlines_singleton,
    unlines_singleton]
  simp [String.append_assoc]

theorem mask_testBit (n b : Nat) : Int.testBit (2 ^ n - 1) b = decide (b < n) := by
  rw [mask_cast]
  show Nat.testBit (2 ^ n - 1) b = decide (b < n)
  exact Nat.testBit_two_pow_sub_one n b

/-! ## `cache_associativity`: the cursor -/

/-- One loop body of `cache_associativity` from an in-bounds cursor, when
`length + step` is representable. -/
theorem associativity_body_eq (length step p : Int) (hs : 1 ≤ step)
    (hfit : length + step ≤ INT_MAX) (h0 : 0 ≤ p) (h1 : p < length) :
    associativity_body length step p = some (if p + step ≥ length then 0 else p + step) := by
  have hr : INT_MIN ≤ p + step ∧ p + step ≤ INT_MAX := by
    unfold INT_MAX at hfit; unfold INT_MIN INT_MAX; constructor <;> omega
  simp only [associativity_body, if_pos (And.intro h0 h1), int_add, int_result, if_pos hr,
    Option.map_some']

/-- The cursor is defined and in bounds at every iteration. -/
theorem associativity_cursor_inv (length step : Int) (hl : 0 < length) (hs : 1 ≤ step)
    (hfit : length + step ≤ INT_MAX) (i : Nat) :
    ∃ p, associativity_cursor length step i = some p ∧ 0 ≤ p ∧ p < length := by
  induction i with
  | zero => exact ⟨0, rfl, le_refl _, hl⟩
  | succ i ih =>
    obtain ⟨p, hp, h0, h1⟩ := ih
    refine ⟨if p + step ≥ length then 0 else p + step, ?_, ?_, ?_⟩
    · simp only [associativity_cursor, hp, Option.some_bind,
        associativity_body_eq length step p hs hfit h0 h1]
    · split_ifs <;> omega
    · split_ifs <;> omega

theorem cache_associativity_calls_fit :
    ∀ c ∈ cache_associativity_calls, 0 < c.1 ∧ 1 ≤ c.2 ∧ c.1 + c.2 ≤ INT_MAX := by
  decide

/-- C3. In `cache_associativity(length, step)`, for `length > 0`, `step ≥ 1` and
`length + step` representable as `int`: at every iteration the cursor `p` is
defined and satisfies `0 ≤ p < length`; when `p + step` reaches or exceeds `length`
the next cursor is exactly 0 (and otherwise it is `p + step`), so it is never
negative.  In particular this holds at each of the `64 * 2^20` iterations for
`length = 128 * 1024 * 1024` and each of the 13 strides of `cache_associativity()`. -/
theorem associativity_cursor_in_bounds :
    (∀ (length step : Int), 0 < length → 1 ≤ step → length + step ≤ INT_MAX → ∀ i : Nat,
      ∃ p, associativity_cursor length step i = some p ∧ 0 ≤ p ∧ p < length ∧
        (p + step ≥ length → associativity_cursor length step (i + 1) = some 0) ∧
        (p + step < length → associativity_cursor length step (i + 1) = some (p + step))) ∧
    cache_associativity_calls.map Prod.fst = List.replicate 13 (128 * 1024 * 1024) ∧
    cache_associativity_calls.map Prod.snd =
      [1, 31, 32, 63, 64, 256, 257, 512, 576, 4096, 4097, 8192, 8193] ∧
    associativity_count = 64 * 2 ^ 20 ∧
    (∀ c ∈ cache_associativity_calls, ∀ i : Nat, (i : Int) < associativity_count →
      ∃ p, associativity_cursor c.1 c.2 i = some p ∧ 0 ≤ p ∧ p < c.1) := by
  refine ⟨?_, by decide, by decide, by decide, ?_⟩
  · intro length step hl hs hfit i
    obtain ⟨p, hp, h0, h1⟩ := associativity_cursor_inv length step hl hs hfit i
    refine ⟨p, hp, h0, h1, ?_, ?_⟩
    · intro h
      simp only [associativity_cursor, hp, Option.some_bind,
        associativity_body_eq length step p hs hfit h0 h1, if_pos h]
    · intro h
      have h' : ¬ (p + step ≥ length) := by omega
      simp only [associativity_cursor, hp, Option.some_bind,
        associativity_body_eq length step p hs hfit h0 h1, if_neg h']
  · intro c hc i _
    obtain ⟨hl, hs, hfit⟩ := cache_associativity_calls_fit c hc
    exact associativity_cursor_inv c.1 c.2 hl hs hfit i

theorem associativity_cursor_in_bounds_witness :
    ∃ p, associativity_cursor 10 4 3 = some p ∧ 0 ≤ p ∧ p < 10 ∧
      (p + 4 ≥ 10 → associativity_cursor 10 4 (3 + 1) = some 0) ∧
      (p + 4 < 10 → associativity_cursor 10 4 (3 + 1) = some (p + 4)) :=
  associativity_cursor_in_bounds.1 10 4 (by decide) (by decide) (by decide) 3

/-- The closed form of the cursor: with `m = ⌈length / step⌉`, the index used at
iteration `i` is `(i mod m) * step`. -/
theorem associativity_cursor_closed (length step : Int) (hl : 0 < length) (hs : 1 ≤ step)
    (hfit : length + step ≤ INT_MAX) (i : Nat) :
    associativity_cursor length step i =
      some ((i : Int) % ceil_div length step * step) := by
  unfold ceil_div
  set m := (length + step - 1) / step with hm
  have hspos : 0 < step := by omega
  have hdiv := Int.ediv_add_emod (length + step - 1) step
  have hmod0 := Int.emod_nonneg (length + step - 1) (by omega : step ≠ 0)
  have hmod1 := Int.emod_lt_of_pos (length + step - 1) hspos
  have hge : length ≤ step * m := by rw [hm]; omega
  have hlt : step * (m - 1) < length := by rw [hm, mul_sub]; omega
  have hmpos : 0 < m := by
    by_contra hneg
    have : m ≤ 0 := by omega
    have : step * m ≤ 0 := Int.mul_nonpos_of_nonneg_of_nonpos (by omega) this
    omega
  induction i with
  | zero => simp [associativity_cursor]
  | succ i ih =>
    set r := (i : Int) % m with hr
    have hr0 : 0 ≤ r := Int.emod_nonneg _ (by omega)
    have hr1 : r < m := Int.emod_lt_of_pos _ hmpos
    have hp0 : 0 ≤ r * step := mul_nonneg hr0 (by omega)
    have hp1 : r * step < length := by
      have : r * step ≤ (m - 1) * step := mul_le_mul_of_nonneg_right (by omega) (by omega)
      rw [mul_comm (m - 1) step] at this
      omega
    have hnext : ((i + 1 : Nat) : Int) % m = (r + 1) % m := by
      have := Int.ediv_add_emod (i : Int) m
      have e : ((i + 1 : Nat) : Int) = (r + 1) + m * ((i : Int) / m) := by
        push_cast; rw [hr]; omega
      rw [e, Int.add_mul_emod_self_left]
    simp only [associativity_cursor, ih, Option.some_bind,
      associativity_body_eq length step _ hs hfit hp0 hp1]
    congr 1
    rw [hnext]
    by_cases hlast : r + 1 = m
    · have hwrap : r * step + step ≥ length := by
        have : r * step + step = step * m := by rw [← hlast]; ring
        omega
      rw [if_pos hwrap, hlast, Int.emod_self, zero_mul]
    · have hr2 : r + 1 < m := by omega
      have hno : ¬ (r * step + step ≥ length) := by
        have : (r + 1) * step ≤ (m - 1) * step :=
          mul_le_mul_of_nonneg_right (by omega) (by omega)
        rw [mul_comm (m - 1) step] at this
        have e : (r + 1) * step = r * step + step := by ring
        omega
      rw [if_neg hno, Int.emod_eq_of_lt (by omega) hr2]
      ring

theorem ceil_div_spec (a b : Int) (hb : 0 < b) :
    b * (ceil_div a b - 1) < a ∧ a ≤ b * ceil_div a b := by
  unfold ceil_div
  have hdiv := Int.ediv_add_emod (a + b - 1) b
  have hmod0 := Int.emod_nonneg (a + b - 1) (by omega : b ≠ 0)
  have hmod1 := Int.emod_lt_of_pos (a + b - 1) hb
  rw [mul_sub]
  constructor <;> omega

/-- C9. In `cache_associativity(length, step)`, for `length > 0`, `step ≥ 1` and
`length + step` representable as `int`, with `m = ⌈length / step⌉` (the integer
with `step * (m - 1) < length ≤ step * m`): the buffer index used at iteration `i`
is exactly `(i mod m) * step`; hence only the `m` cells `0, step, ..., (m - 1) * step`
are touched, and after the cell `(m - 1) * step` the walk restarts from cell 0. -/
theorem associativity_index (length step : Int) (hl : 0 < length) (hs : 1 ≤ step)
    (hfit : length + step ≤ INT_MAX) :
    (step * (ceil_div length step - 1) < length ∧ length ≤ step * ceil_div length step) ∧
    (∀ i : Nat, associativity_cursor length step i =
      some ((i : Int) % ceil_div length step * step)) ∧
    (∀ i : Nat, ∃ j : Int, 0 ≤ j ∧ j < ceil_div length step ∧
      associativity_cursor length step i = some (j * step)) ∧
    (∀ i : Nat, associativity_cursor length step i = some ((ceil_div length step - 1) * step) →
      associativity_cursor length step (i + 1) = some 0) := by
  have hspec := ceil_div_spec length step (by omega)
  have hmpos : 0 < ceil_div length step := by
    by_contra hneg
    have h1 : ceil_div length step ≤ 0 := by omega
    have : step * ceil_div length step ≤ 0 := Int.mul_nonpos_of_nonneg_of_nonpos (by omega) h1
    omega
  refine ⟨hspec, associativity_cursor_closed length step hl hs hfit, ?_, ?_⟩
  · intro i
    exact ⟨_, Int.emod_nonneg _ (by omega), Int.emod_lt_of_pos _ hmpos,
      associativity_cursor_closed length step hl hs hfit i⟩
  · intro i hi
    have hp0 : 0 ≤ (ceil_div length step - 1) * step := mul_nonneg (by omega) (by omega)
    have hp1 : (ceil_div length step - 1) * step < length := by
      rw [mul_comm]; exact hspec.1
    have hwrap : (ceil_div length step - 1) * step + step ≥ length := by
      have : (ceil_div length step - 1) * step + step = step * ceil_div length step := by ring
      omega
    simp only [associativity_cursor, hi, Option.some_bind,
      associativity_body_eq length step _ hs hfit hp0 hp1, if_pos hwrap]

theorem associativity_index_witness :
    associativity_cursor 10 4 7 = some ((7 : Int) % ceil_div 10 4 * 4) ∧ ceil_div 10 4 = 3 :=
  ⟨(associativity_index 10 4 (by decide) (by decide) (by decide)).2.1 7, by decide⟩

/-! ## `cacheline`: the size of the buffer -/

/-- C7, as stated, fails: at step 0 the array `cacheline` allocates has `64 * 2^20`
elements, which is `256 * 2^20` bytes and not `64 * 2^20` bytes. -/
theorem cacheline_buffer_not_64MiB :
    cacheline_buffer_elements 0 = 64 * 2 ^ 20 ∧
    cacheline_buffer_elements 0 * sizeof_int ≠ 64 * 2 ^ 20 ∧
    cacheline_buffer_bytes 0 ≠ 64 * 2 ^ 20 := by
  decide

/-- C7, amended. For every step `s` in `0 .. 10`, the buffer `cacheline` allocates
and fills has `64 * 2^20` `int` elements (a count representable as `int`); with
4-byte elements that is `256 * 2^20` bytes (256 MiB). -/
theorem cacheline_buffer_size (s : Nat) (hs : s ≤ 10) :
    cacheline_buffer_elements s = 64 * 2 ^ 20 ∧
    int_result (cacheline_buffer_elements s) = some (64 * 2 ^ 20) ∧
    cacheline_buffer_elements s * sizeof_int = 256 * 2 ^ 20 ∧
    cacheline_buffer_bytes s = 256 * 2 ^ 20 := by
  interval_cases s <;> decide

theorem cacheline_buffer_size_witness :
    cacheline_buffer_elements 10 = 64 * 2 ^ 20 ∧ cacheline_buffer_bytes 10 = 256 * 2 ^ 20 :=
  have h := cacheline_buffer_size 10 (by decide)
  ⟨h.1, h.2.2.2⟩

/-! ## `false_sharing`: cache lines of the offsets -/

/-- C8, as stated, fails: for a buffer at byte address 56 (8-byte aligned) the
offsets 0 and 1 are in cache line 0 while the offsets 2 and 3 are in cache line 1. -/
theorem false_sharing_first_call_split :
    ¬ same_cache_line 56 false_sharing_first_call ∧
    cache_line_of 56 0 = 0 ∧ cache_line_of 56 1 = 0 ∧
    cache_line_of 56 2 = 1 ∧ cache_line_of 56 3 = 1 := by
  decide

/-- C8, amended. With 4-byte `int` elements and 64-byte cache lines, the cache line
of element `k` of a buffer at byte address `base` being `⌊(base + 4 k) / 64⌋`: the
offsets `0, 1, 2, 3` of the first call fall in the same cache line exactly when
`base mod 64 ≤ 51` (for a 4-byte aligned `base`: `base mod 64 ≤ 48`), in particular
whenever `base` is a multiple of 16; the offsets
`16, 32, 48, 64` of the second call fall in four pairwise different cache lines
for every `base`; both sets of offsets are pairwise distinct and inside the
1024-element buffer. -/
theorem false_sharing_cache_lines :
    sizeof_int = 4 ∧ CACHE_LINE_SIZE = 64 ∧
    false_sharing_first_call = [0, 1, 2, 3] ∧
    false_sharing_second_call = [16, 32, 48, 64] ∧
    (∀ base : Int, same_cache_line base false_sharing_first_call ↔ base % 64 ≤ 51) ∧
    (∀ base : Int, base % 4 = 0 →
      (same_cache_line base false_sharing_first_call ↔ base % 64 ≤ 48)) ∧
    (∀ base : Int, base % 16 = 0 → same_cache_line base false_sharing_first_call) ∧
    (∀ base : Int, different_cache_lines base false_sharing_second_call) ∧
    valid_offsets false_sharing_first_call ∧ valid_offsets false_sharing_second_call := by
  have line : ∀ base k : Int, cache_line_of base k = (base + 4 * k) / 64 := fun _ _ => rfl
  have key : ∀ base : Int, same_cache_line base false_sharing_first_call ↔ base % 64 ≤ 51 := by
    intro base
    constructor
    · intro h
      have h03 := h 0 (by decide) 3 (by decide)
      rw [line, line] at h03
      omega
    · intro h a ha b hb
      have e0 : ∀ k : Int, k ∈ false_sharing_first_call → (base + 4 * k) / 64 = base / 64 := by
        intro k hk
        simp only [false_sharing_first_call, List.mem_cons, List.mem_singleton,
          List.not_mem_nil, or_false] at hk
        rcases hk with rfl | rfl | rfl | rfl <;> omega
      rw [line, line, e0 a ha, e0 b hb]
  refine ⟨rfl, rfl, rfl, rfl, key, ?_, ?_, ?_, by decide, by decide⟩
  · intro base h
    rw [key base]
    omega
  · intro base h
    exact (key base).2 (by omega)
  · intro base
    simp only [different_cache_lines, false_sharing_second_call, line, List.pairwise_cons,
      List.mem_cons, List.mem_singleton, List.not_mem_nil, forall_eq_or_imp, forall_eq,
      false_imp_iff, forall_const, List.Pairwise.nil, and_true, ne_eq]
    refine ⟨⟨?_, ?_, ?_⟩, ⟨?_, ?_⟩, ?_⟩ <;> omega

theorem false_sharing_cache_lines_witness :
    same_cache_line 4096 false_sharing_first_call ∧
    different_cache_lines 4096 false_sharing_second_call :=
  ⟨false_sharing_cache_lines.2.2.2.2.2.2.1 4096 (by decide),
    false_sharing_cache_lines.2.2.2.2.2.2.2.1 4096⟩

/-! ## Lines of the probes' texts -/

theorem digitChar_ne_newline : ∀ d < 10, Nat.digitChar d ≠ '\n' := by
  decide

theorem toDigitsCore_no_newline (fuel n : Nat) (ds : List Char) (h : '\n' ∉ ds) :
    '\n' ∉ Nat.toDigitsCore 10 fuel n ds := by
  induction fuel generalizing n ds with
  | zero => simpa [Nat.toDigitsCore] using h
  | succ fuel ih =>
    have hd : '\n' ∉ Nat.digitChar (n % 10) :: ds := by
      simp only [List.mem_cons, not_or]
      exact ⟨fun e => digitChar_ne_newline _ (Nat.mod_lt _ (by decide)) e.symm, h⟩
    unfold Nat.toDigitsCore
    dsimp only
    split_ifs
    · exact hd
    · exact ih _ _ hd

theorem no_newline_nat (n : Nat) : no_newline (toString n) := by
  show '\n' ∉ (Nat.toDigits 10 n)
  exact toDigitsCore_no_newline _ _ _ (List.not_mem_nil _)

theorem no_newline_append (a b : String) (ha : no_newline a) (hb : no_newline b) :
    no_newline (a ++ b) := by
  unfold no_newline at *
  rw [String.data_append, List.mem_append]
  exact fun h => h.elim ha hb

theorem no_newline_int (n : Int) : no_newline (toString n) := by
  cases n with
  | ofNat m => exact no_newline_nat m
  | negSucc m => exact no_newline_append "-" _ (by decide) (no_newline_nat _)

theorem no_newline_get_size_str (fs : Int → Int → String) (hfs : ∀ n d, no_newline (fs n d))
    (b : Int) : no_newline (get_size_str fs b) := by
  unfold get_size_str
  split_ifs
  · exact no_newline_append _ _ (no_newline_int b) (by decide)
  · exact no_newline_append _ _ (hfs _ _) (by decide)
  · exact no_newline_append _ _ (hfs _ _) (by decide)
  · exact no_newline_int b

theorem lines_of_line (l rest : List Char) (h : '\n' ∉ l) :
    lines_of (l ++ '\n' :: rest) = l :: lines_of rest := by
  induction l with
  | nil => simp [lines_of]
  | cons c cs ih =>
    have hc : c ≠ '\n' := fun e => h (by simp [e])
    have hcs : '\n' ∉ cs := fun e => h (List.mem_cons_of_mem _ e)
    simp [lines_of, hc, ih hcs]

/-- Splitting a text written line by line gives the lines back. -/
theorem output_lines_unlines (ls : List String) (h : ∀ l ∈ ls, no_newline l) :
    output_lines (unlines ls) = ls := by
  unfold output_lines
  induction ls with
  | nil => rfl
  | cons l ls ih =>
    have hl : '\n' ∉ l.data := h l (List.mem_cons_self _ _)
    have e : (unlines (l :: ls)).data = l.data ++ '\n' :: (unlines ls).data := by
      simp [unlines, String.data_append]
    rw [e, lines_of_line _ _ hl, List.map_cons, ih (fun x hx => h x (List.mem_cons_of_mem _ hx))]

theorem unlines_report (header : String) (obs : List String) :
    header ++ "\n" ++ unlines obs ++ "\n" = unlines (header :: obs ++ [""]) := by
  rw [← List.singleton_append, unlines_append, unlines_append, unlines_singleton,
    unlines_singleton]
  simp [String.append_assoc]

/-- The observation line of `cacheline` for one step. -/
theorem cacheline_output_eq (step : Nat) (e : Int) :
    cacheline_output step e =
      ("elapsed: " ++ toString e ++ " ns, " ++
        ("step: " ++ toString (to_size_t (1 * 2 ^ step) * sizeof_int % 2 ^ 64) ++ " bytes"))
        ++ "\n" := by
  unfold cacheline_output
  apply String.ext
  simp [String.data_append]

theorem cacheline_eq (elapsed : Nat → Int) :
    cacheline elapsed =
      unlines ("cacheline: " :: (List.range 11).map (fun s =>
        "elapsed: " ++ toString (elapsed s) ++ " ns, " ++
          ("step: " ++ toString (to_size_t (1 * 2 ^ s) * sizeof_int % 2 ^ 64) ++ " bytes"))
        ++ [""]) := by
  unfold cacheline
  rw [foldl_unlines _ _ _ _ (fun out s _ => by rw [cacheline_output_eq]), unlines_report]

theorem cache_associativity_eq (fs : Int → Int → String) (elapsed : Nat → Int) :
    cache_associativity fs elapsed =
      unlines ("cache associativity: " :: cache_associativity_calls.enum.map (fun c =>
        "elapsed: " ++ toString (elapsed c.1) ++ " ns, " ++
          (get_size_str fs c.2.1 ++ ", step : " ++ toString c.2.2))
        ++ [""]) := by
  unfold cache_associativity
  rw [foldl_unlines _ _ (fun c : Nat × Int × Int =>
      "elapsed: " ++ toString (elapsed c.1) ++ " ns, " ++
        (get_size_str fs c.2.1 ++ ", step : " ++ toString c.2.2)) _ (fun out c _ => by
    unfold cache_associativity_output
    apply String.ext
    simp [String.data_append]), unlines_report]

theorem instruction_level_parallelism_eq (e1 e2 e3 : Int) :
    instruction_level_parallelism e1 e2 e3 =
      unlines ["instruction level parallelism: ", "case1: " ++ toString e1 ++ " ns",
        "case2: " ++ toString e2 ++ " ns", "case3: " ++ toString e3 ++ " ns", ""] := by
  unfold instruction_level_parallelism
  apply String.ext
  simp [unlines, String.data_append]

theorem false_sharing_output_first (e : Int) :
    false_sharing_output 0 1 2 3 e = "steps: 0, 1, 2, 3: elapsed " ++ toString e ++ " ns" ++ "\n" := by
  unfold false_sharing_output
  rw [show "steps: " ++ toString (0 : Int) ++ ", " ++ toString (1 : Int) ++ ", " ++
    toString (2 : Int) ++ ", " ++ toString (3 : Int) ++ ": " ++ "elapsed " =
      "steps: 0, 1, 2, 3: elapsed " from by decide]

theorem false_sharing_output_second (e : Int) :
    false_sharing_output 16 32 48 64 e =
      "steps: 16, 32, 48, 64: elapsed " ++ toString e ++ " ns" ++ "\n" := by
  unfold false_sharing_output
  rw [show "steps: " ++ toString (16 : Int) ++ ", " ++ toString (32 : Int) ++ ", " ++
    toString (48 : Int) ++ ", " ++ toString (64 : Int) ++ ": " ++ "elapsed " =
      "steps: 16, 32, 48, 64: elapsed " from by decide]

theorem false_sharing_eq (e1 e2 : Int) :
    false_sharing e1 e2 =
      unlines ["false sharing: ",
        "steps: 0, 1, 2, 3: elapsed " ++ toString e1 ++ " ns",
        "steps: 16, 32, 48, 64: elapsed " ++ toString e2 ++ " ns"] := by
  unfold false_sharing
  rw [false_sharing_output_first, false_sharing_output_second]
  apply String.ext
  simp [unlines, String.data_append]

/-- A text written as a header, observation lines and a blank line has the
specified format. -/
theorem report_format_unlines (n : Nat) (header : String) (obs : List String)
    (hne : header ≠ "") (hh : no_newline header) (hlen : obs.length = n)
    (hobs : ∀ l ∈ obs, no_newline l ∧ observation_line l) :
    report_format n (unlines (header :: obs ++ [""])) := by
  refine ⟨header, obs, output_lines_unlines _ ?_, hne, hlen, fun l hl => (hobs l hl).2⟩
  intro l hl
  rw [List.cons_append, List.mem_cons, List.mem_append, List.mem_singleton] at hl
  rcases hl with rfl | hl | rfl
  · exact hh
  · exact (hobs l hl).1
  · decide

theorem no_newline_observation (N : Int) (fields : String) (h : no_newline fields) :
    no_newline ("elapsed: " ++ toString N ++ " ns, " ++ fields) :=
  no_newline_append _ _
    (no_newline_append _ _ (no_newline_append _ _ (by decide) (no_newline_int N)) (by decide)) h

theorem observation_line_head (l : String) (h : observation_line l) :
    l.data.head? = some 'e' := by
  obtain ⟨N, fields, rfl⟩ := h
  simp [String.data_append]

theorem cacheline_report (elapsed : Nat → Int) : report_format 11 (cacheline elapsed) := by
  rw [cacheline_eq]
  refine report_format_unlines 11 _ _ (by decide) (by decide) (by simp) ?_
  intro l hl
  obtain ⟨s, _, rfl⟩ := List.mem_map.1 hl
  exact ⟨no_newline_observation _ _ (no_newline_append _ _
    (no_newline_append _ _ (by decide) (no_newline_int _)) (by decide)), _, _, rfl⟩

theorem multi_level_caches_report (fs : Int → Int → String) (hfs : ∀ n d, no_newline (fs n d))
    (elapsed : Nat → Int) :
    ∃ out, multi_level_caches fs elapsed = some out ∧ report_format 17 out := by
  refine ⟨_, multi_level_caches_eq fs elapsed, ?_⟩
  refine report_format_unlines 17 _ _ (by decide) (by decide) (by simp) ?_
  intro l hl
  obtain ⟨s, _, rfl⟩ := List.mem_map.1 hl
  refine ⟨?_, elapsed s, "buffer size: " ++ get_size_str fs (2 ^ s * 1024), ?_⟩
  · exact no_newline_append _ _ (no_newline_append _ _
      (no_newline_append _ _ (by decide) (no_newline_int _)) (by decide))
      (no_newline_get_size_str fs hfs _)
  · apply String.ext
    simp [String.data_append]

theorem cache_associativity_report (fs : Int → Int → String)
    (hfs : ∀ n d, no_newline (fs n d)) (elapsed : Nat → Int) :
    report_format 13 (cache_associativity fs elapsed) := by
  rw [cache_associativity_eq]
  refine report_format_unlines 13 _ _ (by decide) (by decide)
    (by simp [cache_associativity_calls]) ?_
  intro l hl
  obtain ⟨c, _, rfl⟩ := List.mem_map.1 hl
  exact ⟨no_newline_observation _ _ (no_newline_append _ _
    (no_newline_append _ _ (no_newline_get_size_str fs hfs _) (by decide)) (no_newline_int _)),
    _, _, rfl⟩

/-- C5, as stated, fails: with all stopwatch readings 0, the text of
`instruction_level_parallelism` has the lines `case1: 0 ns`, `case2: 0 ns`,
`case3: 0 ns` after its header, which do not begin with `elapsed: `, and the text of
`false_sharing` has the lines `steps: 0, 1, 2, 3: elapsed 0 ns` and
`steps: 16, 32, 48, 64: elapsed 0 ns` and no blank line after them; neither text
has the specified format. -/
theorem report_format_fails :
    output_lines (instruction_level_parallelism 0 0 0) =
      ["instruction level parallelism: ", "case1: 0 ns", "case2: 0 ns", "case3: 0 ns", ""] ∧
    ¬ report_format 3 (instruction_level_parallelism 0 0 0) ∧
    output_lines (false_sharing 0 0) =
      ["false sharing: ", "steps: 0, 1, 2, 3: elapsed 0 ns",
        "steps: 16, 32, 48, 64: elapsed 0 ns"] ∧
    ¬ report_format 2 (false_sharing 0 0) := by
  have h1 : output_lines (instruction_level_parallelism 0 0 0) =
      ["instruction level parallelism: ", "case1: 0 ns", "case2: 0 ns", "case3: 0 ns", ""] := by
    decide
  have h2 : output_lines (false_sharing 0 0) =
      ["false sharing: ", "steps: 0, 1, 2, 3: elapsed 0 ns",
        "steps: 16, 32, 48, 64: elapsed 0 ns"] := by
    decide
  refine ⟨h1, ?_, h2, ?_⟩
  · rintro ⟨header, obs, hl, _, hlen, hobs⟩
    obtain ⟨a, b, c, rfl⟩ := List.length_eq_three.1 hlen
    rw [h1] at hl
    simp only [List.cons_append, List.nil_append, List.cons.injEq] at hl
    have := observation_line_head a (hobs a (List.mem_cons_self _ _))
    rw [← hl.2.1] at this
    revert this
    decide
  · rintro ⟨header, obs, hl, _, hlen, hobs⟩
    obtain ⟨a, b, rfl⟩ := List.length_eq_two.1 hlen
    rw [h2] at hl
    simp only [List.cons_append, List.nil_append, List.cons.injEq] at hl
    have := observation_line_head a (hobs a (List.mem_cons_self _ _))
    rw [← hl.2.1] at this
    revert this
    decide

/-- C5, amended. For every choice of stopwatch readings (and every rendering of
float quotients that contains no newline): the texts of `cacheline`,
`multi_level_caches` and `cache_associativity` consist of one labeled header line,
then exactly one line per measured configuration (11, 17 and 13 of them), each
beginning with `elapsed: <N> ns, ` followed by the configuration fields, then one
blank line; the text of `instruction_level_parallelism` consists of its header
line, the three lines `case<k>: <N> ns` and one blank line; the text of
`false_sharing` begins with its header line followed by one line
`steps: <p1>, <p2>, <p3>, <p4>: elapsed <N> ns` per call. -/
theorem probe_report_formats (fs : Int → Int → String) (hfs : ∀ n d, no_newline (fs n d))
    (elapsed : Nat → Int) (e1 e2 e3 : Int) :
    report_format 11 (cacheline elapsed) ∧
    (∃ out, multi_level_caches fs elapsed = some out ∧ report_format 17 out) ∧
    report_format 13 (cache_associativity fs elapsed) ∧
    output_lines (instruction_level_parallelism e1 e2 e3) =
      ["instruction level parallelism: ", "case1: " ++ toString e1 ++ " ns",
        "case2: " ++ toString e2 ++ " ns", "case3: " ++ toString e3 ++ " ns", ""] ∧
    ∃ rest, output_lines (false_sharing e1 e2) =
      "false sharing: " :: ("steps: 0, 1, 2, 3: elapsed " ++ toString e1 ++ " ns") ::
        ("steps: 16, 32, 48, 64: elapsed " ++ toString e2 ++ " ns") :: rest := by
  have hcase : ∀ (label : String) (e : Int), no_newline label →
      no_newline (label ++ toString e ++ " ns") := fun label e h =>
    no_newline_append _ _ (no_newline_append _ _ h (no_newline_int e)) (by decide)
  refine ⟨cacheline_report elapsed, multi_level_caches_report fs hfs elapsed,
    cache_associativity_report fs hfs elapsed, ?_, [], ?_⟩
  · rw [instruction_level_parallelism_eq]
    apply output_lines_unlines
    intro l hl
    simp only [List.mem_cons, List.mem_singleton, List.not_mem_nil, or_false] at hl
    rcases hl with rfl | rfl | rfl | rfl | rfl
    · decide
    · exact hcase _ _ (by decide)
    · exact hcase _ _ (by decide)
    · exact hcase _ _ (by decide)
    · decide
  · rw [false_sharing_eq]
    apply output_lines_unlines
    intro l hl
    simp only [List.mem_cons, List.mem_singleton, List.not_mem_nil, or_false] at hl
    rcases hl with rfl | rfl | rfl
    · decide
    · exact hcase _ _ (by decide)
    · exact hcase _ _ (by decide)

theorem probe_report_formats_witness :
    report_format 11 (cacheline (fun _ => 0)) ∧
    (∃ out, multi_level_caches (fun _ _ => "1.000000") (fun _ => 0) = some out ∧
      report_format 17 out) ∧
    report_format 13 (cache_associativity (fun _ _ => "1.000000") (fun _ => 0)) :=
  have h := probe_report_formats (fun _ _ => "1.000000")
    (fun _ _ => (by decide : no_newline "1.000000")) (fun _ => 0) 0 0 0
  ⟨h.1, h.2.1, h.2.2.1⟩

/-! ## `false_sharing`: the final contents of the buffer -/

theorem write_count_eq : write_count = 2 ^ 20 := by decide

theorem run_inv_start (contents : Int → Int) (pos : Fin 4 → Int) :
    run_inv contents pos (fun _ => 0) (false_sharing_start contents pos) := by
  intro t
  simp [false_sharing_start, Worker.progress]

/-- One step of any thread preserves the invariant. -/
theorem run_inv_step (contents : Int → Int) (pos : Fin 4 → Int)
    (hinj : Function.Injective pos)
    (hpos : ∀ t, 0 ≤ pos t ∧ pos t < false_sharing_buffer_length)
    (hfit : ∀ t, INT_MIN ≤ contents (pos t) ∧ contents (pos t) + write_count ≤ INT_MAX)
    (steps : Fin 4 → Nat) (s : Shared) (h : run_inv contents pos steps s) (t : Fin 4) :
    ∃ s', shared_step s t = some s' ∧
      run_inv contents pos (Function.update steps t (steps t + 1)) s' := by
  obtain ⟨hp, hi, hb, hl, hprog⟩ := h t
  unfold Worker.progress at hprog
  by_cases hlt : (s.workers t).i < write_count
  · have hbound : 0 ≤ (s.workers t).pos ∧ (s.workers t).pos < false_sharing_buffer_length := by
      rw [hp]; exact hpos t
    rcases hl with hnone | ⟨hsome, _⟩
    · -- the load
      refine ⟨_, by simp only [shared_step, write_buffer_step, if_pos hlt, if_pos hbound, hnone,
        Option.map_some']; rfl, ?_⟩
      intro u
      by_cases hu : u = t
      · subst hu
        simp only [Function.update_same]
        refine ⟨hp, hi, hb, Or.inr ⟨by rw [hp], hlt⟩, ?_⟩
        simp only [hnone, Option.isSome_none, Bool.false_eq_true, if_false] at hprog
        simp only [Worker.progress, Option.isSome_some, if_true]
        omega
      · simpa only [Function.update_noteq hu] using h u
    · -- the store
      have hr : INT_MIN ≤ s.buffer (pos t) + 1 ∧ s.buffer (pos t) + 1 ≤ INT_MAX := by
        have := hfit t
        constructor <;> omega
      refine ⟨_, by simp only [shared_step, write_buffer_step, if_pos hlt, if_pos hbound, hsome,
        int_add, int_result, if_pos hr, Option.map_some']; rfl, ?_⟩
      intro u
      by_cases hu : u = t
      · subst hu
        have hbuf : Function.update s.buffer (s.workers u).pos (s.buffer (pos u) + 1) (pos u) =
            s.buffer (pos u) + 1 := by rw [hp]; exact Function.update_same _ _ _
        simp only [Function.update_same, hbuf]
        refine ⟨hp, hlt, by push_cast; omega, Or.inl trivial, ?_⟩
        simp only [hsome, Option.isSome_some, if_true] at hprog
        simp only [Worker.progress, Option.isSome_none, Bool.false_eq_true, if_false]
        omega
      · have hne : pos u ≠ pos t := fun e => hu (hinj e)
        have hbuf : Function.update s.buffer (s.workers t).pos (s.buffer (pos t) + 1) (pos u) =
            s.buffer (pos u) := by rw [hp]; exact Function.update_noteq hne _ _
        simp only [Function.update_noteq hu, hbuf]
        exact h u
  · -- the loop has ended
    have hdone : (s.workers t).i = write_count := by omega
    refine ⟨_, by simp only [shared_step, write_buffer_step, if_neg hlt, Option.map_some']; rfl, ?_⟩
    intro u
    by_cases hu : u = t
    · subst hu
      simp only [Function.update_same]
      refine ⟨hp, hi, hb, hl, ?_⟩
      have hnone : (s.workers u).loaded = none := by
        rcases hl with h1 | ⟨_, h2⟩
        · exact h1
        · omega
      simp only [hnone, Option.isSome_none, Bool.false_eq_true, if_false] at hprog
      simp only [Worker.progress, hnone, Option.isSome_none, Bool.false_eq_true, if_false]
      omega
    · simpa only [Function.update_noteq hu] using h u

/-- The invariant holds along every schedule, and no step is undefined. -/
theorem run_inv_schedule (contents : Int → Int) (pos : Fin 4 → Int)
    (hinj : Function.Injective pos)
    (hpos : ∀ t, 0 ≤ pos t ∧ pos t < false_sharing_buffer_length)
    (hfit : ∀ t, INT_MIN ≤ contents (pos t) ∧ contents (pos t) + write_count ≤ INT_MAX)
    (schedule : List (Fin 4)) (steps : Fin 4 → Nat) (s : Shared)
    (h : run_inv contents pos steps s) :
    ∃ s', schedule.foldlM shared_step s = some s' ∧
      run_inv contents pos (fun t => steps t + schedule.count t) s' := by
  induction schedule generalizing steps s with
  | nil => exact ⟨s, rfl, by simpa using h⟩
  | cons t rest ih =>
    obtain ⟨s1, hs1, hinv1⟩ := run_inv_step contents pos hinj hpos hfit steps s h t
    obtain ⟨s2, hs2, hinv2⟩ := ih _ s1 hinv1
    refine ⟨s2, by simp only [List.foldlM_cons, hs1, Option.bind_eq_bind, Option.some_bind, hs2], ?_⟩
    have e : (fun u => Function.update steps t (steps t + 1) u + rest.count u) =
        (fun u => steps u + (t :: rest).count u) := by
      funext u
      by_cases hu : u = t
      · subst hu; simp [List.count_cons]; omega
      · have : ¬ (t = u) := fun e => hu e.symm
        simp [Function.update_noteq hu, List.count_cons, this]
    rw [← e]
    exact hinv2

/-- The four workers on pairwise distinct cells: along every schedule the run is
defined, the workers have joined exactly when each was given its `2 * write_count`
steps, and then each cell holds its initial contents plus `write_count`. -/
theorem false_sharing_final (contents : Int → Int) (pos : Fin 4 → Int)
    (hinj : Function.Injective pos)
    (hpos : ∀ t, 0 ≤ pos t ∧ pos t < false_sharing_buffer_length)
    (hfit : ∀ t, INT_MIN ≤ contents (pos t) ∧ contents (pos t) + write_count ≤ INT_MAX)
    (schedule : List (Fin 4)) :
    ∃ s, schedule.foldlM shared_step (false_sharing_start contents pos) = some s ∧
      (joined s ↔ ∀ t, 2 * write_count ≤ schedule.count t) ∧
      (joined s → ∀ t, s.buffer (pos t) = contents (pos t) + write_count) := by
  obtain ⟨s, hs, hinv⟩ := run_inv_schedule contents pos hinj hpos hfit schedule _ _
    (run_inv_start contents pos)
  simp only [Nat.zero_add] at hinv
  refine ⟨s, hs, ?_, ?_⟩
  · constructor
    · intro hj t
      obtain ⟨_, _, _, hl, hprog⟩ := hinv t
      have hi := hj t
      unfold Worker.progress at hprog
      dsimp only at hprog
      split_ifs at hprog <;> omega
    · intro hc t
      obtain ⟨_, hi, _, hl, hprog⟩ := hinv t
      have := hc t
      unfold Worker.progress at hprog
      dsimp only at hprog
      split_ifs at hprog <;> omega
  · intro hj t
    obtain ⟨_, _, hb, _, _⟩ := hinv t
    rw [hb, hj t]

theorem count_four_blocks (n : Nat) (t : Fin 4) :
    (List.replicate n (0 : Fin 4) ++ List.replicate n 1 ++ List.replicate n 2 ++
      List.replicate n 3).count t = n := by
  simp only [List.count_append, List.count_replicate]
  fin_cases t <;> simp

theorem sequential_schedule_count (t : Fin 4) :
    sequential_schedule.count t = 2 * write_count :=
  count_four_blocks (2 * write_count) t

theorem first_call_injective : Function.Injective (![0, 1, 2, 3] : Fin 4 → Int) := by
  decide

/-- C4 at a failing input. `false_sharing(0, 1, 2, 3)` on storage whose cells hold 1
when the threads start (`new int[1024]` does not initialise the array), the four
workers run one after the other to completion: all four have joined, and
`buffer[0]`, `buffer[1]`, `buffer[2]`, `buffer[3]` hold `2^20 + 1`, not
`C = 2^20`.  On storage that holds 0 the same run ends with `C` in the four cells. -/
theorem false_sharing_uninitialised_buffer :
    write_count = 2 ^ 20 ∧
    (∃ s, false_sharing_run (fun _ => 1) 0 1 2 3 sequential_schedule = some s ∧ joined s ∧
      s.buffer 0 = 2 ^ 20 + 1 ∧ s.buffer 1 = 2 ^ 20 + 1 ∧ s.buffer 2 = 2 ^ 20 + 1 ∧
      s.buffer 3 = 2 ^ 20 + 1 ∧ s.buffer 0 ≠ write_count) ∧
    (∃ s, false_sharing_run (fun _ => 0) 0 1 2 3 sequential_schedule = some s ∧ joined s ∧
      s.buffer 0 = write_count ∧ s.buffer 1 = write_count ∧ s.buffer 2 = write_count ∧
      s.buffer 3 = write_count) := by
  have hpos : ∀ t : Fin 4, 0 ≤ (![0, 1, 2, 3] : Fin 4 → Int) t ∧
      (![0, 1, 2, 3] : Fin 4 → Int) t < false_sharing_buffer_length := by decide
  have hcount : ∀ t : Fin 4, 2 * write_count ≤ sequential_schedule.count t := fun t =>
    le_of_eq (sequential_schedule_count t).symm
  have hfit1 : INT_MIN ≤ (1 : Int) ∧ (1 : Int) + (write_count : Int) ≤ INT_MAX := by decide
  have hfit0 : INT_MIN ≤ (0 : Int) ∧ (0 : Int) + (write_count : Int) ≤ INT_MAX := by decide
  refine ⟨write_count_eq, ?_, ?_⟩
  · obtain ⟨s, hs, hj, hfin⟩ := false_sharing_final (fun _ => 1) ![0, 1, 2, 3]
      first_call_injective hpos (fun _ => hfit1) sequential_schedule
    have hjoined := hj.2 hcount
    have h := hfin hjoined
    have h0 := h 0
    have h1 := h 1
    have h2 := h 2
    have h3 := h 3
    simp only [Matrix.cons_val_zero, Matrix.cons_val_one, Matrix.head_cons, write_count_eq]
      at h0 h1
    refine ⟨s, hs, hjoined, ?_, ?_, ?_, ?_, ?_⟩
    · rw [h0]; norm_num
    · rw [h1]; norm_num
    · rw [show (2 : Int) = (![0, 1, 2, 3] : Fin 4 → Int) 2 from rfl, h2, write_count_eq]; norm_num
    · rw [show (3 : Int) = (![0, 1, 2, 3] : Fin 4 → Int) 3 from rfl, h3, write_count_eq]; norm_num
    · rw [h0, write_count_eq]; norm_num
  · obtain ⟨s, hs, hj, hfin⟩ := false_sharing_final (fun _ => 0) ![0, 1, 2, 3]
      first_call_injective hpos (fun _ => hfit0) sequential_schedule
    have hjoined := hj.2 hcount
    have h := hfin hjoined
    have h0 := h 0
    have h1 := h 1
    have h2 := h 2
    have h3 := h 3
    simp only [Matrix.cons_val_zero, Matrix.cons_val_one, Matrix.head_cons, zero_add] at h0 h1
    refine ⟨s, hs, hjoined, h0, h1, ?_, ?_⟩
    · rw [show (2 : Int) = (![0, 1, 2, 3] : Fin 4 → Int) 2 from rfl, h2, zero_add]
    · rw [show (3 : Int) = (![0, 1, 2, 3] : Fin 4 → Int) 3 from rfl, h3, zero_add]

/-! ## `multi_level_caches`: the sweep as a whole -/

/-- C6. `multi_level_caches` measures exactly 17 configurations, `i = 0 .. 16` in
that order; the `i`-th buffer size is `2^i * 1024` bytes (computed without
overflow), so the sweep starts at 1 KiB, doubles at every step and ends at 64 MiB;
for every such `i` the element count `array_size = buffer_size / 4` is the power of
two `2^(i+8)`, `mod = array_size - 1` is the all-ones mask of the low `i + 8` bits,
and the size handed to `get_size_str` (`array_size * 4`) is the requested buffer
size; the text written is the header, one observation line per configuration in
that order, and a blank line (19 lines in all, when the float quotients are
rendered without a newline). -/
theorem multi_level_caches_sweep_spec :
    multi_level_caches_sweep.length = 17 ∧
    (∀ i : Nat, i ≤ 16 →
      multi_level_caches_sweep[i]? = some (some (2 ^ i * 1024)) ∧
      foreach_array_size (2 ^ i * 1024) = 2 ^ (i + 8) ∧
      foreach_mod (2 ^ (i + 8)) = some (2 ^ (i + 8) - 1) ∧
      (∀ b : Nat, Int.testBit (2 ^ (i + 8) - 1) b = decide (b < i + 8)) ∧
      foreach_reported_size (2 ^ i * 1024) = 2 ^ i * 1024) ∧
    multi_level_caches_sweep.head? = some (some (KB 1)) ∧
    (∀ i : Nat, i < 16 → ∃ a, multi_level_caches_sweep[i]? = some (some a) ∧
      multi_level_caches_sweep[i + 1]? = some (some (2 * a))) ∧
    multi_level_caches_sweep.getLast? = some (some (MB 64)) ∧
    (∀ (fs : Int → Int → String) (elapsed : Nat → Int),
      multi_level_caches fs elapsed =
        some (unlines ("multi-level caches: " ::
          (List.range 17).map (fun i => "elapsed: " ++ toString (elapsed i) ++
            " ns, buffer size: " ++ get_size_str fs (2 ^ i * 1024)) ++ [""]))) ∧
    (∀ (fs : Int → Int → String), (∀ n d, no_newline (fs n d)) → ∀ elapsed : Nat → Int,
      ∃ out, multi_level_caches fs elapsed = some out ∧ report_format 17 out) := by
  have hsweep : ∀ i : Nat, i ≤ 16 → multi_level_caches_sweep[i]? = some (some (2 ^ i * 1024)) := by
    intro i hi
    unfold multi_level_caches_sweep
    rw [List.getElem?_map, List.getElem?_range (by omega), Option.map_some',
      sweep_buffer_size_eq i hi]
  refine ⟨by simp [multi_level_caches_sweep], ?_, by decide, ?_, by decide, multi_level_caches_eq,
    multi_level_caches_report⟩
  · intro i hi
    have hpow : (2 : Int) ^ i ≤ 2 ^ 16 := pow_le_pow_right₀ (by norm_num) hi
    have hpos : (0 : Int) < 2 ^ i := by positivity
    have h8 : (2 : Int) ^ (i + 8) = 2 ^ i * 256 := by rw [pow_add]; norm_num
    refine ⟨hsweep i hi, ?_, ?_, mask_testBit _, ?_⟩
    · rw [foreach_array_size_eq _ (by omega) (by unfold INT_MAX; omega), h8]; omega
    · have hr : INT_MIN ≤ (2 : Int) ^ (i + 8) - 1 ∧ (2 : Int) ^ (i + 8) - 1 ≤ INT_MAX := by
        unfold INT_MIN INT_MAX; constructor <;> omega
      simp only [foreach_mod, int_result, if_pos hr]
    · exact foreach_reported_size_eq _ (by omega) (by unfold INT_MAX; omega) (by omega)
  · intro i hi
    refine ⟨_, hsweep i (by omega), ?_⟩
    rw [hsweep (i + 1) (by omega), pow_succ]
    congr 2; ring

theorem multi_level_caches_sweep_spec_witness :
    multi_level_caches_sweep[16]? = some (some (2 ^ 16 * 1024)) ∧
    foreach_array_size (2 ^ 16 * 1024) = 2 ^ (16 + 8) ∧
    foreach_reported_size (2 ^ 16 * 1024) = 2 ^ 16 * 1024 :=
  have h := multi_level_caches_sweep_spec.2.1 16 (by decide)
  ⟨h.1, h.2.1, h.2.2.2.2⟩

end HowCachesWork
